import Mathlib

/-!
# htpasswd-go: the credential store commands of `main.go`

A shallow embedding of `src/main.go` (the commands `list`, `add`, `delete`,
`editpass` and the reader `readHtpasswdFile`) together with the Go library
functions they call, followed by theorems about them.

Modelling conventions.

* A Go `string` is a `Str`, a list of Unicode code points: file contents and
  command-line arguments are taken to be valid UTF-8 text.  Byte lengths (needed
  for the line scanner's token limit) are computed from the UTF-8 width of every
  code point.
* The file `user.htpasswd` is an `Option Str`: `none` when the file does not
  exist.  Operating-system failures other than "file does not exist" are outside
  the model, so `os.Open`, `os.OpenFile`, `WriteString` and `os.WriteFile`
  succeed.
* `bcrypt.GenerateFromPassword` is a parameter `bcrypt : Str → Nat → Except Str Str`:
  the password and the random salt drawn by the call give either a hash or an
  error (with its text).
* A command returns an `Outcome`: the one file operation it performs (if any)
  and the text it prints on standard output.
-/

namespace Htpasswd

/-- Text: a Go string, as a list of code points. -/
abbrev Str := List Char

/-! ## Go library functions -/

/-- Go `unicode.IsSpace`: the Latin-1 spaces `\t \n \v \f \r`, space, U+0085,
U+00A0, and beyond Latin-1 the `White_Space` table. -/
def isSpace (r : Char) : Bool :=
  let n := r.toNat
  (9 ≤ n && n ≤ 13) || n == 32 || n == 0x85 || n == 0xA0 || n == 0x1680 ||
  (0x2000 ≤ n && n ≤ 0x200A) || n == 0x2028 || n == 0x2029 || n == 0x202F ||
  n == 0x205F || n == 0x3000

/-- Go `strings.TrimLeftFunc(s, unicode.IsSpace)`. -/
def TrimLeft (s : Str) : Str := s.dropWhile isSpace

/-- Go `strings.TrimRightFunc(s, unicode.IsSpace)`. -/
def TrimRight (s : Str) : Str := (s.reverse.dropWhile isSpace).reverse

/-- Go `strings.TrimSpace`: leading and trailing white space removed. -/
def TrimSpace (s : Str) : Str := TrimRight (TrimLeft s)

/-- Go `strings.HasPrefix`. -/
def HasPrefix (s pre : Str) : Bool := pre.isPrefixOf s

/-- Go `strings.Cut`: the text before and after the first occurrence of `sep`,
or `none` when `sep` does not occur. -/
def Cut : Str → Str → Option (Str × Str)
  | [], sep => if sep = [] then some ([], []) else none
  | c :: s, sep =>
    if sep.isPrefixOf (c :: s) then some ([], (c :: s).drop sep.length)
    else match Cut s sep with
      | none => none
      | some (before, after) => some (c :: before, after)

/-- Go `strings.SplitN(s, sep, n)` for a non-empty separator and `n ≥ 0`: at most
`n` pieces, the last one being the unsplit remainder (`n = 0` gives no piece). -/
def SplitN (s sep : Str) : Nat → List Str
  | 0 => []
  | 1 => [s]
  | n + 2 =>
    match Cut s sep with
    | none => [s]
    | some (before, after) => before :: SplitN after sep (n + 1)

/-- Go `strings.Join`. -/
def Join : List Str → Str → Str
  | [], _ => []
  | [a], _ => a
  | a :: b :: rest, sep => a ++ sep ++ Join (b :: rest) sep

/-- Number of bytes of the UTF-8 encoding of a text (Go `len(s)`). -/
def byteLen (s : Str) : Nat := (s.map Char.utf8Size).sum

/-- Go `bufio.MaxScanTokenSize`. -/
def MaxScanTokenSize : Nat := 64 * 1024

/-- Errors a read of the store can report. -/
inductive ReadError where
  /-- Go `bufio.ErrTooLong`. -/
  | ErrTooLong
  deriving DecidableEq, Repr

/-- The text of an error, as `%v` prints it. -/
def ReadError.text : ReadError → Str
  | .ErrTooLong => "bufio.Scanner: token too long".toList

/-- Go `bufio.dropCR`: one trailing carriage return removed. -/
def dropCR (data : Str) : Str :=
  if data.getLast? = some '\r' then data.dropLast else data

/-- The raw lines of an input as `bufio.ScanLines` delimits them, before
`dropCR`: each call consumes the bytes up to and including the next line feed
(`data[0:i]` for `i = IndexByte(data, '\n')`), and at the end of the input a last
piece without line feed is a line when it is not empty (`atEOF && len(data) == 0`
gives no token). -/
def rawLines : Str → List Str
  | [] => []
  | c :: rest =>
    if c = '\n' then [] :: rawLines rest
    else match rawLines rest with
      | [] => [[c]]
      | l :: ls => (c :: l) :: ls

/-- A `bufio.Scanner` with the `ScanLines` split function run over raw lines:
the tokens `Scan` delivers (`dropCR` of each raw line) and the value of `Err()`
once `Scan` has returned false.  The scanner's buffer grows to `MaxScanTokenSize`
bytes at most: a raw line of `MaxScanTokenSize` bytes or more fills it before its
line feed (or the end of the input) is seen, and `Scan` stops with `ErrTooLong`;
a raw line of `MaxScanTokenSize - 1` bytes still fits together with its line
feed. -/
def scanTokens : List Str → List Str × Option ReadError
  | [] => ([], none)
  | raw :: rest =>
    if MaxScanTokenSize ≤ byteLen raw then ([], some .ErrTooLong)
    else ((dropCR raw) :: (scanTokens rest).1, (scanTokens rest).2)

/-- The scanner over a whole file content. -/
def Scanner (data : Str) : List Str × Option ReadError := scanTokens (rawLines data)

/-! ## The file and the effects of a command -/

/-- The one operation a command performs on `user.htpasswd`. -/
inductive FileOp where
  /-- `os.OpenFile` with `O_APPEND|O_CREATE|O_WRONLY`, then `WriteString`. -/
  | append (entry : Str)
  /-- `os.WriteFile`: the file is created or truncated and gets `data`. -/
  | writeFile (data : Str)
  deriving DecidableEq, Repr

/-- What a command does: its file operation, if any, and its standard output. -/
structure Outcome where
  write : Option FileOp
  stdout : Str
  deriving DecidableEq, Repr

/-- The file after a command, from the file before it and the operation. -/
def fileAfter (file : Option Str) : Option FileOp → Option Str
  | none => file
  | some (.append entry) => some (file.getD [] ++ entry)
  | some (.writeFile data) => some data

/-! ## `readHtpasswdFile` -/

/-- The body of the `for scanner.Scan()` loop of `readHtpasswdFile`. -/
def readStep (users : List Str) (text : Str) : List Str :=
  let line := TrimSpace text
  if line ≠ [] then users ++ [line] else users

/-- `readHtpasswdFile`: a missing file is an empty store; otherwise the
trimmed non-empty lines, returned together with `scanner.Err()`. -/
def readHtpasswdFile (file : Option Str) : List Str × Option ReadError :=
  match file with
  | none => ([], none)
  | some data =>
    let scanner := Scanner data
    (scanner.1.foldl readStep [], scanner.2)

/-! ## The commands -/

/-- Output of every command when the read fails. -/
def msgReadFailed (err : ReadError) : Str :=
  "文件读取失败: ".toList ++ err.text ++ "\n".toList

/-- Output when `bcrypt.GenerateFromPassword` fails. -/
def msgHashFailed (err : Str) : Str :=
  "密码哈希生成失败: ".toList ++ err ++ "\n".toList

/-- Output of `add` for a user that is already there. -/
def msgExists (username : Str) : Str :=
  "用户 ".toList ++ username ++ " 已存在, 可以使用修改密码功能\n".toList

/-- Output of a successful `add`. -/
def msgAdded (username : Str) : Str :=
  "用户 ".toList ++ username ++ " 已被添加\n".toList

/-- Output of `delete` and `editpass` for a user that is not found. -/
def msgNotExist (username : Str) : Str :=
  "用户 ".toList ++ username ++ " 不存在\n".toList

/-- Output of a successful `delete`. -/
def msgDeleted (username : Str) : Str :=
  "用户 ".toList ++ username ++ " 已被删除\n".toList

/-- Output of a successful `editpass`. -/
def msgUpdated (username : Str) : Str :=
  "用户 ".toList ++ username ++ " 密码已更新\n".toList

/-- The loop of `listCmd` from index `i` on: for every entry the line
`Printf("%d. %s\n", i+1, parts[0])`; `none` when `parts[0]` is out of range. -/
def listLoop : Nat → List Str → Option Str
  | _, [] => some []
  | i, user :: rest =>
    match SplitN user [':'] 2 with
    | [] => none
    | p0 :: _ =>
      match listLoop (i + 1) rest with
      | none => none
      | some out => some ((Nat.repr (i + 1)).toList ++ ". ".toList ++ p0 ++ "\n".toList ++ out)

/-- `listCmd`; `none` is a run-time panic. -/
def listCmd (file : Option Str) : Option Outcome :=
  match readHtpasswdFile file with
  | (_, some err) => some ⟨none, msgReadFailed err⟩
  | (users, none) =>
    match listLoop 0 users with
    | none => none
    | some out => some ⟨none, out⟩

/-- The existence loop of `addCmd`: `some true` when some entry has
`parts[0] == username`; `none` when `parts[0]` is out of range. -/
def addLoop (username : Str) : List Str → Option Bool
  | [] => some false
  | user :: rest =>
    match SplitN user [':'] 2 with
    | [] => none
    | p0 :: _ => if p0 = username then some true else addLoop username rest

/-- `addCmd`; `none` is a run-time panic. -/
def addCmd (bcrypt : Str → Nat → Except Str Str) (salt : Nat) (file : Option Str)
    (username password : Str) : Option Outcome :=
  match readHtpasswdFile file with
  | (_, some err) => some ⟨none, msgReadFailed err⟩
  | (users, none) =>
    match addLoop username users with
    | none => none
    | some true => some ⟨none, msgExists username⟩
    | some false =>
      match bcrypt password salt with
      | .error err => some ⟨none, msgHashFailed err⟩
      | .ok hash =>
        let entry := username ++ [':'] ++ hash ++ ['\n']
        some ⟨some (.append entry), msgAdded username⟩

/-- The body of the loop of `deleteCmd` on the pair `(newContent, userFound)`. -/
def deleteStep (username : Str) (st : List Str × Bool) (user : Str) : List Str × Bool :=
  if !HasPrefix user (username ++ [':']) then (st.1 ++ [user], st.2)
  else (st.1, true)

/-- The loop of `deleteCmd`: the final `(newContent, userFound)`. -/
def deleteLoop (username : Str) (users : List Str) : List Str × Bool :=
  users.foldl (deleteStep username) ([], false)

/-- The write-back of `deleteCmd` and `editPassCmd`:
`strings.Join(newContent, "\n") + "\n"`. -/
def writeBack (newContent : List Str) : Str := Join newContent ['\n'] ++ ['\n']

/-- `deleteCmd`. -/
def deleteCmd (file : Option Str) (username : Str) : Outcome :=
  match readHtpasswdFile file with
  | (_, some err) => ⟨none, msgReadFailed err⟩
  | (users, none) =>
    let r := deleteLoop username users
    if !r.2 then ⟨none, msgNotExist username⟩
    else ⟨some (.writeFile (writeBack r.1)), msgDeleted username⟩

/-- The body of the loop of `editPassCmd` on the pair `(newContent, userFound)`. -/
def editStep (username hash : Str) (st : List Str × Bool) (user : Str) : List Str × Bool :=
  if HasPrefix user (username ++ [':']) then (st.1 ++ [username ++ [':'] ++ hash], true)
  else (st.1 ++ [user], st.2)

/-- The loop of `editPassCmd`: the final `(newContent, userFound)`. -/
def editLoop (username hash : Str) (users : List Str) : List Str × Bool :=
  users.foldl (editStep username hash) ([], false)

/-- `editPassCmd`: the hash is computed before the entry is looked up. -/
def editPassCmd (bcrypt : Str → Nat → Except Str Str) (salt : Nat) (file : Option Str)
    (username newPassword : Str) : Outcome :=
  match readHtpasswdFile file with
  | (_, some err) => ⟨none, msgReadFailed err⟩
  | (users, none) =>
    match bcrypt newPassword salt with
    | .error err => ⟨none, msgHashFailed err⟩
    | .ok hash =>
      let r := editLoop username hash users
      if !r.2 then ⟨none, msgNotExist username⟩
      else ⟨some (.writeFile (writeBack r.1)), msgUpdated username⟩

/-! ## Notions the statements use -/

/-- The username field of a stored line, as `list` and `add` take it:
`strings.SplitN(line, ":", 2)[0]`. -/
def usernameField (line : Str) : Option Str := (SplitN line [':'] 2).head?

/-- A text does not start with white space. -/
def noLeadingSpace (s : Str) : Bool :=
  match s.head? with
  | some c => !isSpace c
  | none => true

/-- A text does not end with white space. -/
def noTrailingSpace (s : Str) : Bool :=
  match s.getLast? with
  | some c => !isSpace c
  | none => true

/-- The lines of a file content in the words of the specification: the pieces
of the content separated by line feeds. -/
def fileLines (content : Str) : List Str := content.splitOn '\n'

/-- The reader as the specification words it: the white-space-trimmed text of
each line of the file, lines that are empty after trimming skipped. -/
def trimmedNonEmptyLines (content : Str) : List Str :=
  ((fileLines content).map TrimSpace).filter (fun l => !l.isEmpty)

/-- Running `add` for each (username, password, salt) in turn, every run
starting from the file the previous one left; `none` is a run-time panic. -/
def runAdds (bcrypt : Str → Nat → Except Str Str) :
    Option Str → List (Str × Str × Nat) → Option (Option Str)
  | file, [] => some file
  | file, (username, password, salt) :: rest =>
    match addCmd bcrypt salt file username password with
    | none => none
    | some o => runAdds bcrypt (fileAfter file o.write) rest

/-- The listing the specification expects for a sequence of usernames: one line
per username, the 1-based index, ". " and the username. -/
def listing (usernames : List Str) : Str :=
  ((usernames.enumFrom 0).map (fun p =>
    (Nat.repr (p.1 + 1)).toList ++ ". ".toList ++ p.2 ++ "\n".toList)).flatten

/-! ## Lemmas on the library functions -/

theorem TrimRight_eq_rdropWhile (s : Str) : TrimRight s = s.rdropWhile isSpace := rfl

theorem noLeadingSpace_TrimLeft (s : Str) : noLeadingSpace (TrimLeft s) = true := by
  unfold noLeadingSpace TrimLeft
  have h := List.head?_dropWhile_not isSpace s
  cases hh : (s.dropWhile isSpace).head? with
  | none => rfl
  | some c => rw [hh] at h; simpa using h

theorem noTrailingSpace_TrimRight (s : Str) : noTrailingSpace (TrimRight s) = true := by
  unfold noTrailingSpace
  rw [TrimRight_eq_rdropWhile]
  cases hh : (s.rdropWhile isSpace).getLast? with
  | none => rfl
  | some c =>
    have hne : s.rdropWhile isSpace ≠ [] := by
      intro e; rw [e] at hh; simp at hh
    have h := List.rdropWhile_last_not isSpace s hne
    rw [List.getLast?_eq_getLast _ hne] at hh
    simp only [Option.some.injEq] at hh
    rw [hh] at h
    simpa using h

theorem TrimLeft_eq_self (s : Str) (h : noLeadingSpace s = true) : TrimLeft s = s := by
  cases s with
  | nil => rfl
  | cons c t =>
    have hc : isSpace c = false := by simpa [noLeadingSpace] using h
    simp [TrimLeft, List.dropWhile_cons, hc]

theorem TrimRight_eq_self (s : Str) (h : noTrailingSpace s = true) : TrimRight s = s := by
  rw [TrimRight_eq_rdropWhile, List.rdropWhile_eq_self_iff]
  intro hl
  rw [noTrailingSpace, List.getLast?_eq_getLast _ hl] at h
  simpa using h

theorem TrimSpace_eq_self (s : Str) (h1 : noLeadingSpace s = true)
    (h2 : noTrailingSpace s = true) : TrimSpace s = s := by
  unfold TrimSpace
  rw [TrimLeft_eq_self s h1, TrimRight_eq_self s h2]

theorem TrimRight_isPre (s : Str) : TrimRight s <+: s := by
  rw [TrimRight_eq_rdropWhile]; exact List.rdropWhile_prefix isSpace s

theorem noLeadingSpace_TrimRight (s : Str) (h : noLeadingSpace s = true) :
    noLeadingSpace (TrimRight s) = true := by
  cases s with
  | nil => rfl
  | cons c t =>
    have hc : isSpace c = false := by simpa [noLeadingSpace] using h
    have hne : TrimRight (c :: t) ≠ [] := by
      rw [TrimRight_eq_rdropWhile]
      intro e
      rw [List.rdropWhile_eq_nil_iff] at e
      have := e c (List.mem_cons_self c t)
      rw [hc] at this
      exact Bool.false_ne_true this
    obtain ⟨r, hr⟩ := TrimRight_isPre (c :: t)
    cases hT : TrimRight (c :: t) with
    | nil => exact absurd hT hne
    | cons d u =>
      rw [hT] at hr
      simp only [List.cons_append, List.cons.injEq] at hr
      simp [noLeadingSpace, hr.1, hc]

theorem TrimSpace_noLeadingSpace (s : Str) : noLeadingSpace (TrimSpace s) = true :=
  noLeadingSpace_TrimRight _ (noLeadingSpace_TrimLeft s)

theorem TrimSpace_noTrailingSpace (s : Str) : noTrailingSpace (TrimSpace s) = true :=
  noTrailingSpace_TrimRight _

theorem TrimSpace_sublist (s : Str) : List.Sublist (TrimSpace s) s :=
  (TrimRight_isPre _).sublist.trans (List.dropWhile_sublist isSpace)

theorem TrimRight_concat_space (s : Str) (c : Char) (h : isSpace c = true) :
    TrimRight (s ++ [c]) = TrimRight s := by
  rw [TrimRight_eq_rdropWhile, TrimRight_eq_rdropWhile]
  exact List.rdropWhile_concat_pos isSpace s c h

theorem TrimSpace_concat_space (s : Str) (c : Char) (h : isSpace c = true) :
    TrimSpace (s ++ [c]) = TrimSpace s := by
  unfold TrimSpace TrimLeft
  rw [List.dropWhile_append]
  by_cases he : (s.dropWhile isSpace).isEmpty = true
  · have hnil : s.dropWhile isSpace = [] := by simpa using he
    simp [he, hnil, List.dropWhile_cons, h, TrimRight]
  · simp only [he, if_false, Bool.false_eq_true]
    exact TrimRight_concat_space _ c h

theorem TrimSpace_dropCR (s : Str) : TrimSpace (dropCR s) = TrimSpace s := by
  unfold dropCR
  by_cases h : s.getLast? = some '\r'
  · rw [if_pos h]
    have hne : s ≠ [] := by intro e; rw [e] at h; simp at h
    have hs : s = s.dropLast ++ ['\r'] := by
      have h1 := List.dropLast_append_getLast hne
      rw [List.getLast?_eq_getLast _ hne, Option.some.injEq] at h
      rw [h] at h1
      exact h1.symm
    conv_rhs => rw [hs]
    exact (TrimSpace_concat_space _ '\r' (by decide)).symm
  · rw [if_neg h]


theorem Cut_colon_eq (s : Str) :
    Cut s [':'] = if ':' ∈ s then
      some (s.takeWhile (fun c => c != ':'), (s.dropWhile (fun c => c != ':')).tail)
    else none := by
  induction s with
  | nil => simp [Cut]
  | cons c s ih =>
    by_cases hc : c = ':'
    · subst hc
      simp [Cut, List.isPrefixOf]
    · have h1 : ([':'].isPrefixOf (c :: s)) = false := by
        simp only [List.isPrefixOf, Bool.and_true, beq_eq_false_iff_ne, ne_eq]
        exact fun e => hc e.symm
      have h2 : (':' ∈ c :: s) ↔ ':' ∈ s := by
        simp [List.mem_cons, Ne.symm hc]
      have h3 : (c != ':') = true := by simp [hc]
      simp only [Cut, h1, ih, h2]
      by_cases hm : ':' ∈ s
      · simp [hm, List.takeWhile_cons, List.dropWhile_cons, h3]
      · simp [hm]

theorem SplitN_colon_two (s : Str) :
    SplitN s [':'] 2 = if ':' ∈ s then
      [s.takeWhile (fun c => c != ':'), (s.dropWhile (fun c => c != ':')).tail]
    else [s] := by
  simp only [SplitN, Cut_colon_eq]
  by_cases hm : ':' ∈ s <;> simp [hm]

theorem takeWhile_ne_colon_of_not_mem (s : Str) (h : ':' ∉ s) :
    s.takeWhile (fun c => c != ':') = s := by
  rw [List.takeWhile_eq_self_iff]
  intro c hc
  have : c ≠ ':' := fun e => h (e ▸ hc)
  simp [this]

theorem colon_not_mem_takeWhile (s : Str) : ':' ∉ s.takeWhile (fun c => c != ':') := by
  intro h
  have := List.mem_takeWhile_imp h
  simp at this

theorem usernameField_eq (line : Str) :
    usernameField line = some (line.takeWhile (fun c => c != ':')) := by
  unfold usernameField
  rw [SplitN_colon_two]
  by_cases hm : ':' ∈ line
  · simp [hm]
  · simp [hm, takeWhile_ne_colon_of_not_mem line hm]

theorem takeWhile_append_colon (u rest : Str) (hu : ':' ∉ u) :
    (u ++ ':' :: rest).takeWhile (fun c => c != ':') = u := by
  induction u with
  | nil => simp
  | cons c u ih =>
    have hc : c ≠ ':' := fun e => hu (by simp [e])
    have hu2 : ':' ∉ u := fun h => hu (List.mem_cons_of_mem _ h)
    simp [List.takeWhile_cons, hc, ih hu2]

theorem split_at_colon (s : Str) (h : ':' ∈ s) :
    s = s.takeWhile (fun c => c != ':') ++ ':' :: (s.dropWhile (fun c => c != ':')).tail := by
  induction s with
  | nil => simp at h
  | cons c s ih =>
    by_cases hc : c = ':'
    · subst hc; simp
    · have hm : ':' ∈ s := by
        rcases List.mem_cons.mp h with e | e
        · exact absurd e.symm hc
        · exact e
      have h3 : (c != ':') = true := by simp [hc]
      simp only [List.takeWhile_cons, List.dropWhile_cons, h3, if_true, List.cons_append]
      exact congrArg (List.cons c) (ih hm)

theorem HasPrefix_iff (s pre : Str) : HasPrefix s pre = true ↔ ∃ rest, s = pre ++ rest := by
  unfold HasPrefix
  rw [List.isPrefixOf_iff_prefix]
  constructor
  · rintro ⟨t, ht⟩; exact ⟨t, ht.symm⟩
  · rintro ⟨t, ht⟩; exact ⟨t, ht.symm⟩

/-- For a username without colon, the prefix check of `delete` and `editpass`
holds exactly on the lines that contain a colon and have that username field. -/
theorem HasPrefix_colon_iff (line username : Str) (hu : ':' ∉ username) :
    HasPrefix line (username ++ [':']) = true ↔
      (':' ∈ line ∧ usernameField line = some username) := by
  rw [HasPrefix_iff, usernameField_eq]
  constructor
  · rintro ⟨rest, rfl⟩
    refine ⟨by simp, ?_⟩
    rw [List.append_assoc]
    simp only [List.singleton_append]
    rw [takeWhile_append_colon username rest hu]
  · rintro ⟨hm, hf⟩
    refine ⟨(line.dropWhile (fun c => c != ':')).tail, ?_⟩
    have := split_at_colon line hm
    rw [Option.some.injEq] at hf
    rw [hf] at this
    rw [List.append_assoc]
    simpa using this

/-! ## Lemmas on the scanner and the reader -/

theorem byteLen_le_of_sublist {a b : Str} (h : List.Sublist a b) : byteLen a ≤ byteLen b := by
  unfold byteLen
  induction h with
  | slnil => simp
  | cons c _ ih => simp only [List.map_cons, List.sum_cons]; omega
  | cons₂ c _ ih => simp only [List.map_cons, List.sum_cons]; omega

theorem rawLines_eq_nil_iff (data : Str) : rawLines data = [] ↔ data = [] := by
  cases data with
  | nil => simp [rawLines]
  | cons c rest =>
    simp only [rawLines, reduceCtorEq, iff_false]
    by_cases hc : c = '\n'
    · simp [hc]
    · simp only [hc, if_false]
      cases rawLines rest <;> simp

theorem rawLines_cons_ne (c : Char) (rest : Str) (hc : c ≠ '\n') :
    rawLines (c :: rest) =
      match rawLines rest with
      | [] => [[c]]
      | l :: ls => (c :: l) :: ls := by
  simp [rawLines, hc]

theorem rawLines_append_nl (l rest : Str) (h : '\n' ∉ l) :
    rawLines (l ++ '\n' :: rest) = l :: rawLines rest := by
  induction l with
  | nil => simp [rawLines]
  | cons c l ih =>
    have hc : c ≠ '\n' := fun e => h (by simp [e])
    have hl : '\n' ∉ l := fun hm => h (List.mem_cons_of_mem _ hm)
    simp [rawLines, hc, ih hl]

theorem rawLines_no_nl (data : Str) : ∀ r ∈ rawLines data, '\n' ∉ r := by
  induction data with
  | nil => simp [rawLines]
  | cons c rest ih =>
    intro r hr
    by_cases hc : c = '\n'
    · simp only [rawLines, hc, if_true, List.mem_cons] at hr
      rcases hr with e | e
      · simp [e]
      · exact ih r e
    · simp only [rawLines, hc, if_false] at hr
      cases hrl : rawLines rest with
      | nil =>
        rw [hrl] at hr
        simp only [List.mem_singleton] at hr
        subst hr
        simpa using Ne.symm hc
      | cons l ls =>
        rw [hrl] at hr ih
        simp only [List.mem_cons] at hr
        rcases hr with e | e
        · subst e
          have := ih l (List.mem_cons_self l ls)
          simp only [List.mem_cons, not_or]
          exact ⟨Ne.symm hc, this⟩
        · exact ih r (List.mem_cons_of_mem _ e)

theorem rawLines_append_after_nl (a b : Str) :
    rawLines (a ++ '\n' :: b) = rawLines (a ++ ['\n']) ++ rawLines b := by
  induction a with
  | nil => simp [rawLines]
  | cons c a ih =>
    by_cases hc : c = '\n'
    · simp [rawLines, hc, ih]
    · rw [List.cons_append, List.cons_append, rawLines_cons_ne _ _ hc, rawLines_cons_ne _ _ hc,
        ih]
      cases hr : rawLines (a ++ ['\n']) with
      | nil =>
        have := (rawLines_eq_nil_iff _).mp hr
        simp at this
      | cons l ls => simp

/-- Appending to a content that is empty or ends with a line feed appends the raw lines. -/
theorem rawLines_append (a b : Str) (h : a = [] ∨ a.getLast? = some '\n') :
    rawLines (a ++ b) = rawLines a ++ rawLines b := by
  rcases h with h | h
  · subst h; simp [rawLines]
  · have hne : a ≠ [] := by intro e; rw [e] at h; simp at h
    have hs : a = a.dropLast ++ ['\n'] := by
      have h1 := List.dropLast_append_getLast hne
      rw [List.getLast?_eq_getLast _ hne, Option.some.injEq] at h
      rw [h] at h1
      exact h1.symm
    rw [hs, List.append_assoc]
    exact rawLines_append_after_nl _ _

theorem scanTokens_err_none_iff (raws : List Str) :
    (scanTokens raws).2 = none ↔ ∀ r ∈ raws, byteLen r < MaxScanTokenSize := by
  induction raws with
  | nil => simp [scanTokens]
  | cons r rest ih =>
    by_cases hr : MaxScanTokenSize ≤ byteLen r
    · simp only [scanTokens, hr, if_true, reduceCtorEq, false_iff]
      intro h
      have := h r (List.mem_cons_self r rest)
      omega
    · simp only [scanTokens, hr, if_false, ih, List.mem_cons, forall_eq_or_imp]
      constructor
      · intro h; exact ⟨by omega, h⟩
      · intro h; exact h.2

theorem scanTokens_ok (raws : List Str) (h : ∀ r ∈ raws, byteLen r < MaxScanTokenSize) :
    scanTokens raws = (raws.map dropCR, none) := by
  induction raws with
  | nil => simp [scanTokens]
  | cons r rest ih =>
    have hr : ¬ MaxScanTokenSize ≤ byteLen r := by
      have := h r (List.mem_cons_self r rest); omega
    have := ih (fun x hx => h x (List.mem_cons_of_mem _ hx))
    simp [scanTokens, hr, this]

/-- Every token the scanner delivers comes from a raw line below the token limit. -/
theorem scanTokens_mem (raws : List Str) :
    ∀ t ∈ (scanTokens raws).1, ∃ r ∈ raws, t = dropCR r ∧ byteLen r < MaxScanTokenSize := by
  induction raws with
  | nil => simp [scanTokens]
  | cons r rest ih =>
    intro t ht
    by_cases hr : MaxScanTokenSize ≤ byteLen r
    · simp [scanTokens, hr] at ht
    · simp only [scanTokens, hr, if_false, List.mem_cons] at ht
      rcases ht with e | e
      · exact ⟨r, List.mem_cons_self r rest, e, by omega⟩
      · obtain ⟨x, hx, hx2⟩ := ih t e
        exact ⟨x, List.mem_cons_of_mem _ hx, hx2⟩

theorem foldl_readStep (toks : List Str) (acc : List Str) :
    toks.foldl readStep acc = acc ++ (toks.map TrimSpace).filter (fun l => !l.isEmpty) := by
  induction toks generalizing acc with
  | nil => simp
  | cons t rest ih =>
    rw [List.foldl_cons, ih]
    by_cases he : TrimSpace t = []
    · simp [readStep, he]
    · simp [readStep, he, List.filter_cons]

/-- The reader on a file all of whose raw lines are below the token limit. -/
theorem readHtpasswdFile_ok (data : Str)
    (h : ∀ r ∈ rawLines data, byteLen r < MaxScanTokenSize) :
    readHtpasswdFile (some data) =
      (((rawLines data).map TrimSpace).filter (fun l => !l.isEmpty), none) := by
  simp only [readHtpasswdFile, Scanner, scanTokens_ok _ h, foldl_readStep, List.nil_append,
    List.map_map]
  congr 2
  apply List.map_congr_left
  intro r _
  exact TrimSpace_dropCR r

theorem readHtpasswdFile_err_none_iff (data : Str) :
    (readHtpasswdFile (some data)).2 = none ↔
      ∀ r ∈ rawLines data, byteLen r < MaxScanTokenSize := by
  simp only [readHtpasswdFile, Scanner]
  exact scanTokens_err_none_iff _

theorem dropCR_sublist (s : Str) : List.Sublist (dropCR s) s := by
  unfold dropCR
  split
  · exact List.dropLast_sublist s
  · exact List.Sublist.refl s

/-- What every line the reader returns looks like: not empty, trimmed, without
line feed, and below the scanner's token limit. -/
theorem readHtpasswdFile_mem (file : Option Str) :
    ∀ l ∈ (readHtpasswdFile file).1,
      l ≠ [] ∧ noLeadingSpace l = true ∧ noTrailingSpace l = true ∧ '\n' ∉ l ∧
        byteLen l < MaxScanTokenSize := by
  intro l hl
  cases file with
  | none => simp [readHtpasswdFile] at hl
  | some data =>
    simp only [readHtpasswdFile, Scanner, foldl_readStep, List.nil_append, List.mem_filter,
      List.mem_map] at hl
    obtain ⟨⟨t, ht, rfl⟩, hne⟩ := hl
    obtain ⟨r, hr, rfl, hlen⟩ := scanTokens_mem _ t ht
    have hsub : List.Sublist (TrimSpace (dropCR r)) r :=
      (TrimSpace_sublist _).trans (dropCR_sublist r)
    refine ⟨by simpa using hne, TrimSpace_noLeadingSpace _, TrimSpace_noTrailingSpace _, ?_, ?_⟩
    · intro hm
      exact rawLines_no_nl data r hr (hsub.subset hm)
    · exact lt_of_le_of_lt (byteLen_le_of_sublist hsub) hlen

theorem writeBack_cons_cons (a b : Str) (rest : List Str) :
    writeBack (a :: b :: rest) = a ++ '\n' :: writeBack (b :: rest) := by
  simp [writeBack, Join]

theorem rawLines_writeBack (lines : List Str) (hne : lines ≠ [])
    (h : ∀ l ∈ lines, '\n' ∉ l) : rawLines (writeBack lines) = lines := by
  induction lines with
  | nil => exact absurd rfl hne
  | cons a rest ih =>
    have ha : '\n' ∉ a := h a (List.mem_cons_self a rest)
    cases rest with
    | nil =>
      have : writeBack [a] = a ++ '\n' :: [] := by simp [writeBack, Join]
      rw [this, rawLines_append_nl a [] ha]
      simp [rawLines]
    | cons b rest2 =>
      rw [writeBack_cons_cons, rawLines_append_nl a _ ha,
        ih (by simp) (fun l hl => h l (List.mem_cons_of_mem _ hl))]

/-- Reading back what the write-back wrote, for lines that are not empty, trimmed,
without line feed and below the token limit. -/
theorem readHtpasswdFile_writeBack (lines : List Str)
    (h : ∀ l ∈ lines, l ≠ [] ∧ noLeadingSpace l = true ∧ noTrailingSpace l = true ∧
      '\n' ∉ l ∧ byteLen l < MaxScanTokenSize) :
    readHtpasswdFile (some (writeBack lines)) = (lines, none) := by
  by_cases hne : lines = []
  · subst hne
    decide
  · have hraw := rawLines_writeBack lines hne (fun l hl => (h l hl).2.2.2.1)
    rw [readHtpasswdFile_ok _ (by rw [hraw]; exact fun l hl => (h l hl).2.2.2.2), hraw]
    congr 1
    have hmap : lines.map TrimSpace = lines := by
      conv_rhs => rw [← List.map_id lines]
      apply List.map_congr_left
      intro l hl
      exact TrimSpace_eq_self l (h l hl).2.1 (h l hl).2.2.1
    rw [hmap, List.filter_eq_self]
    intro l hl
    have := (h l hl).1
    simpa using this

/-- The lines of the specification are the raw lines of the scanner, up to one
empty piece after the last line feed. -/
theorem fileLines_rawLines (data : Str) :
    fileLines data = rawLines data ∨ fileLines data = rawLines data ++ [[]] := by
  unfold fileLines List.splitOn
  induction data with
  | nil => right; simp [rawLines]
  | cons c rest ih =>
    rw [List.splitOnP_cons]
    by_cases hc : c = '\n'
    · subst hc
      simp only [beq_self_eq_true, if_true, rawLines]
      rcases ih with ih | ih
      · left; rw [ih]
      · right; rw [ih]; rfl
    · have hb : (c == '\n') = false := by simpa using hc
      rw [rawLines_cons_ne c rest hc]
      simp only [hb, Bool.false_eq_true, if_false]
      cases hr : rawLines rest with
      | nil =>
        rw [hr] at ih
        rcases ih with ih | ih
        · exact absurd ih (List.splitOnP_ne_nil _ _)
        · left; rw [ih]; rfl
      | cons l ls =>
        rw [hr] at ih
        rcases ih with ih | ih
        · left; rw [ih]; rfl
        · right; rw [ih]; rfl

theorem trimmedNonEmptyLines_eq (data : Str) :
    trimmedNonEmptyLines data =
      ((rawLines data).map TrimSpace).filter (fun l => !l.isEmpty) := by
  unfold trimmedNonEmptyLines
  rcases fileLines_rawLines data with h | h
  · rw [h]
  · rw [h, List.map_append, List.filter_append]
    have : List.filter (fun l => !l.isEmpty) (List.map TrimSpace [([] : Str)]) = [] := by decide
    rw [this, List.append_nil]

theorem rawLines_subset_fileLines (data : Str) : ∀ r ∈ rawLines data, r ∈ fileLines data := by
  intro r hr
  rcases fileLines_rawLines data with h | h
  · rw [h]; exact hr
  · rw [h]; exact List.mem_append_left _ hr

theorem rawLines_single (l : Str) (hne : l ≠ []) (h : '\n' ∉ l) : rawLines l = [l] := by
  induction l with
  | nil => exact absurd rfl hne
  | cons c rest ih =>
    have hc : c ≠ '\n' := fun e => h (by simp [e])
    have hr : '\n' ∉ rest := fun hm => h (List.mem_cons_of_mem _ hm)
    rw [rawLines_cons_ne c rest hc]
    cases rest with
    | nil => simp [rawLines]
    | cons d rest2 => rw [ih (by simp) hr]

theorem byteLen_replicate_a (n : Nat) : byteLen (List.replicate n 'a') = n := by
  induction n with
  | zero => rfl
  | succ n ih =>
    have h1 : Char.utf8Size 'a' = 1 := by decide
    unfold byteLen at ih ⊢
    rw [List.replicate_succ, List.map_cons, List.sum_cons, ih, h1]
    omega

theorem replicate_a_props (n : Nat) :
    List.replicate (n + 1) 'a' ≠ [] ∧ '\n' ∉ List.replicate (n + 1) 'a' ∧
      TrimSpace (List.replicate (n + 1) 'a') = List.replicate (n + 1) 'a' := by
  refine ⟨by rw [List.replicate_succ]; exact List.cons_ne_nil _ _, ?_, ?_⟩
  · intro h
    have := List.eq_of_mem_replicate h
    exact absurd this (by decide)
  · apply TrimSpace_eq_self
    · rw [noLeadingSpace, List.head?_replicate, if_neg (Nat.succ_ne_zero n)]; decide
    · rw [noTrailingSpace, List.getLast?_replicate, if_neg (Nat.succ_ne_zero n)]; decide

/-- A single line that reaches the token limit: the reader returns no line and the
scanner's error. -/
theorem readHtpasswdFile_long_line (n : Nat) (h : MaxScanTokenSize ≤ n + 1) :
    readHtpasswdFile (some (List.replicate (n + 1) 'a')) = ([], some .ErrTooLong) := by
  obtain ⟨hne, hnl, _⟩ := replicate_a_props n
  have hraw := rawLines_single _ hne hnl
  have hlen : MaxScanTokenSize ≤ byteLen (List.replicate (n + 1) 'a') := by
    rw [byteLen_replicate_a]; exact h
  show (List.foldl readStep [] (scanTokens (rawLines (List.replicate (n + 1) 'a'))).1,
    (scanTokens (rawLines (List.replicate (n + 1) 'a'))).2) = ([], some .ErrTooLong)
  rw [hraw]
  simp only [scanTokens, hlen, if_true, List.foldl_nil]

theorem trimmedNonEmptyLines_long_line (n : Nat) :
    trimmedNonEmptyLines (List.replicate (n + 1) 'a') = [List.replicate (n + 1) 'a'] := by
  obtain ⟨hne, hnl, ht⟩ := replicate_a_props n
  rw [trimmedNonEmptyLines_eq, rawLines_single _ hne hnl]
  simp only [List.map_cons, List.map_nil, ht]
  rw [List.filter_cons_of_pos (by simp), List.filter_nil]

/-- The line `username:hash` of a new entry: not empty, trimmed and without line
feed, for a username without line feed and leading white space and a hash without
white space. -/
theorem entryLine_props (username hash : Str) (hu1 : '\n' ∉ username)
    (hu2 : noLeadingSpace username = true) (hh : ∀ c ∈ hash, isSpace c = false) :
    username ++ [':'] ++ hash ≠ [] ∧ noLeadingSpace (username ++ [':'] ++ hash) = true ∧
      noTrailingSpace (username ++ [':'] ++ hash) = true ∧
      '\n' ∉ username ++ [':'] ++ hash := by
  refine ⟨by simp, ?_, ?_, ?_⟩
  · cases username with
    | nil => show (!isSpace ':') = true; decide
    | cons c u => simpa [noLeadingSpace] using hu2
  · unfold noTrailingSpace
    rw [List.getLast?_append, List.getLast?_concat]
    cases hl : hash.getLast? with
    | none => decide
    | some c =>
      have := hh c (List.mem_of_getLast?_eq_some hl)
      simp [this]
  · intro hm
    rcases List.mem_append.mp hm with h | h
    · rcases List.mem_append.mp h with h | h
      · exact hu1 h
      · simp at h
    · have := hh _ h
      exact absurd this (by decide)

/-- Reading the file after an entry has been appended to a content that is
missing, empty or ends with a line feed. -/
theorem readHtpasswdFile_append_entry (file : Option Str) (users : List Str)
    (username hash : Str)
    (hread : readHtpasswdFile file = (users, none))
    (hnl : ∀ content, file = some content → content = [] ∨ content.getLast? = some '\n')
    (hu1 : '\n' ∉ username) (hu2 : noLeadingSpace username = true)
    (hh : ∀ c ∈ hash, isSpace c = false)
    (hlen : byteLen (username ++ [':'] ++ hash) < MaxScanTokenSize) :
    readHtpasswdFile (some (file.getD [] ++ (username ++ [':'] ++ hash ++ ['\n']))) =
      (users ++ [username ++ [':'] ++ hash], none) := by
  obtain ⟨hne, hlead, htrail, hnol⟩ := entryLine_props username hash hu1 hu2 hh
  have hrawE : rawLines (username ++ [':'] ++ hash ++ ['\n']) = [username ++ [':'] ++ hash] := by
    have := rawLines_append_nl (username ++ [':'] ++ hash) [] hnol
    simpa [rawLines] using this
  have htrim : TrimSpace (username ++ [':'] ++ hash) = username ++ [':'] ++ hash :=
    TrimSpace_eq_self _ hlead htrail
  have hfil : List.filter (fun l => !l.isEmpty) [username ++ [':'] ++ hash] =
      [username ++ [':'] ++ hash] := by
    rw [List.filter_cons_of_pos (by simp), List.filter_nil]
  have hold : ∀ content, file = some content →
      (∀ r ∈ rawLines content, byteLen r < MaxScanTokenSize) ∧
        users = ((rawLines content).map TrimSpace).filter (fun l => !l.isEmpty) := by
    intro content hc
    have h2 : (readHtpasswdFile (some content)).2 = none := by rw [← hc, hread]
    have hs := (readHtpasswdFile_err_none_iff content).mp h2
    refine ⟨hs, ?_⟩
    have := readHtpasswdFile_ok content hs
    rw [← hc, hread] at this
    exact (Prod.mk.inj this).1
  have hraw : rawLines (file.getD [] ++ (username ++ [':'] ++ hash ++ ['\n'])) =
      rawLines (file.getD []) ++ [username ++ [':'] ++ hash] := by
    rw [rawLines_append _ _ (by
      cases file with
      | none => left; rfl
      | some content => exact hnl content rfl), hrawE]
  have hshort : ∀ r ∈ rawLines (file.getD []), byteLen r < MaxScanTokenSize := by
    cases file with
    | none => simp [rawLines]
    | some content => exact (hold content rfl).1
  have husers : users = ((rawLines (file.getD [])).map TrimSpace).filter
      (fun l => !l.isEmpty) := by
    cases file with
    | none =>
      have : readHtpasswdFile none = (([] : List Str), none) := rfl
      rw [this] at hread
      rw [← (Prod.mk.inj hread).1]
      rfl
    | some content => exact (hold content rfl).2
  rw [readHtpasswdFile_ok _ (by
    rw [hraw]
    intro r hr
    rcases List.mem_append.mp hr with h | h
    · exact hshort r h
    · rw [List.mem_singleton.mp h]; exact hlen), hraw, List.map_append, List.filter_append,
    ← husers]
  simp only [List.map_cons, List.map_nil, htrim, hfil]

/-! ## Lemmas on the loops of the commands -/

theorem deleteLoop_foldl (username : Str) (users : List Str) (st : List Str × Bool) :
    users.foldl (deleteStep username) st =
      (st.1 ++ users.filter (fun l => !HasPrefix l (username ++ [':'])),
       st.2 || users.any (fun l => HasPrefix l (username ++ [':']))) := by
  induction users generalizing st with
  | nil => simp
  | cons user rest ih =>
    rw [List.foldl_cons, ih]
    by_cases hp : HasPrefix user (username ++ [':']) = true
    · simp [deleteStep, hp, List.filter_cons]
    · have hp2 : HasPrefix user (username ++ [':']) = false := by simpa using hp
      simp [deleteStep, hp2, List.filter_cons]

theorem deleteLoop_eq (username : Str) (users : List Str) :
    deleteLoop username users =
      (users.filter (fun l => !HasPrefix l (username ++ [':'])),
       users.any (fun l => HasPrefix l (username ++ [':']))) := by
  unfold deleteLoop
  rw [deleteLoop_foldl]
  simp

theorem editLoop_foldl (username hash : Str) (users : List Str) (st : List Str × Bool) :
    users.foldl (editStep username hash) st =
      (st.1 ++ users.map (fun l =>
          if HasPrefix l (username ++ [':']) then username ++ [':'] ++ hash else l),
       st.2 || users.any (fun l => HasPrefix l (username ++ [':']))) := by
  induction users generalizing st with
  | nil => simp
  | cons user rest ih =>
    rw [List.foldl_cons, ih]
    by_cases hp : HasPrefix user (username ++ [':']) = true
    · simp [editStep, hp]
    · have hp2 : HasPrefix user (username ++ [':']) = false := by simpa using hp
      simp [editStep, hp2]

theorem editLoop_eq (username hash : Str) (users : List Str) :
    editLoop username hash users =
      (users.map (fun l =>
          if HasPrefix l (username ++ [':']) then username ++ [':'] ++ hash else l),
       users.any (fun l => HasPrefix l (username ++ [':']))) := by
  unfold editLoop
  rw [editLoop_foldl]
  simp

theorem addLoop_eq (username : Str) (users : List Str) :
    addLoop username users =
      some (users.any (fun l => decide (usernameField l = some username))) := by
  induction users with
  | nil => simp [addLoop]
  | cons user rest ih =>
    have hf := usernameField_eq user
    unfold usernameField at hf
    rw [addLoop]
    cases hs : SplitN user [':'] 2 with
    | nil => rw [hs] at hf; simp at hf
    | cons p0 tl =>
      rw [hs] at hf
      simp only [List.head?_cons, Option.some.injEq] at hf
      simp only [List.any_cons, usernameField_eq, Option.some.injEq, ← hf]
      by_cases he : p0 = username
      · simp [he]
      · simp only [he, if_false, ih, usernameField_eq, Option.some.injEq]
        simp

/-- The text `list` prints for the entries `users`, numbered from `i + 1`. -/
theorem listLoop_eq (i : Nat) (users : List Str) :
    listLoop i users = some ((users.enumFrom i).map (fun p =>
        (Nat.repr (p.1 + 1)).toList ++ ". ".toList ++
          p.2.takeWhile (fun c => c != ':') ++ "\n".toList)).flatten := by
  induction users generalizing i with
  | nil => simp [listLoop]
  | cons user rest ih =>
    have hf := usernameField_eq user
    unfold usernameField at hf
    rw [listLoop]
    cases hs : SplitN user [':'] 2 with
    | nil => rw [hs] at hf; simp at hf
    | cons p0 tl =>
      rw [hs] at hf
      simp only [List.head?_cons, Option.some.injEq] at hf
      simp only [ih, List.enumFrom_cons, List.map_cons, List.flatten_cons, hf,
        List.append_assoc]

theorem colon_not_mem_of_usernameField {line username : Str}
    (h : usernameField line = some username) : ':' ∉ username := by
  rw [usernameField_eq, Option.some.injEq] at h
  rw [← h]
  exact colon_not_mem_takeWhile line

/-- The prefix check as a boolean test on the username field, for a username without colon. -/
theorem HasPrefix_colon_eq (line username : Str) (hu : ':' ∉ username) :
    HasPrefix line (username ++ [':']) =
      (decide (':' ∈ line) && decide (usernameField line = some username)) := by
  rw [Bool.eq_iff_iff, HasPrefix_colon_iff line username hu]
  simp

/-- A successful `add` of a fresh username: the entry is appended. -/
theorem addCmd_fresh (bcrypt : Str → Nat → Except Str Str) (salt : Nat)
    (file : Option Str) (users : List Str) (username password hash : Str)
    (hread : readHtpasswdFile file = (users, none))
    (hno : ∀ line ∈ users, usernameField line ≠ some username)
    (hhash : bcrypt password salt = .ok hash) :
    addCmd bcrypt salt file username password =
      some ⟨some (.append (username ++ [':'] ++ hash ++ ['\n'])), msgAdded username⟩ := by
  have hany : users.any (fun l => decide (usernameField l = some username)) = false := by
    rw [List.any_eq_false]
    intro l hl
    simpa using hno l hl
  simp [addCmd, hread, addLoop_eq, hany, hhash]

theorem listing_of_fields (i : Nat) (users : List Str) :
    ((users.enumFrom i).map (fun p =>
        (Nat.repr (p.1 + 1)).toList ++ ". ".toList ++
          p.2.takeWhile (fun c => c != ':') ++ "\n".toList)).flatten =
      (((users.map (fun l => l.takeWhile (fun c => c != ':'))).enumFrom i).map (fun p =>
        (Nat.repr (p.1 + 1)).toList ++ ". ".toList ++ p.2 ++ "\n".toList)).flatten := by
  induction users generalizing i with
  | nil => rfl
  | cons u rest ih =>
    simp only [List.enumFrom_cons, List.map_cons, List.flatten_cons, ih]

/-- What `list` prints on a file the reader reads without error. -/
theorem listCmd_ok (file : Option Str) (users : List Str)
    (hread : readHtpasswdFile file = (users, none)) :
    listCmd file = some ⟨none, listing (users.map (fun l => l.takeWhile (fun c => c != ':')))⟩ := by
  simp only [listCmd, hread, listLoop_eq, listing_of_fields]
  rfl

/-- A run of `add` over fresh, pairwise distinct, well-formed usernames: the store
grows by one entry per username, in order. -/
theorem runAdds_spec (bcrypt : Str → Nat → Except Str Str) (adds : List (Str × Str × Nat)) :
    ∀ (file : Option Str) (users : List Str),
      readHtpasswdFile file = (users, none) →
      (∀ content, file = some content → content = [] ∨ content.getLast? = some '\n') →
      (∀ a ∈ adds, ∀ l ∈ users, usernameField l ≠ some a.1) →
      (adds.map (fun a => a.1)).Nodup →
      (∀ a ∈ adds, ':' ∉ a.1 ∧ '\n' ∉ a.1 ∧ noLeadingSpace a.1 = true) →
      (∀ a ∈ adds, ∃ hash, bcrypt a.2.1 a.2.2 = .ok hash ∧ (∀ c ∈ hash, isSpace c = false) ∧
        byteLen (a.1 ++ [':'] ++ hash) < MaxScanTokenSize) →
      ∃ final added, runAdds bcrypt file adds = some final ∧
        readHtpasswdFile final = (users ++ added, none) ∧
        added.map (fun l => l.takeWhile (fun c => c != ':')) = adds.map (fun a => a.1) := by
  induction adds with
  | nil =>
    intro file users hread _ _ _ _ _
    exact ⟨file, [], rfl, by simpa using hread, rfl⟩
  | cons a rest ih =>
    intro file users hread hnl hfresh hnd hu hhash
    obtain ⟨username, password, salt⟩ := a
    obtain ⟨hash, hok, hsp, hlen⟩ := hhash _ (List.mem_cons_self _ _)
    obtain ⟨hcol, hnol, hlead⟩ := hu _ (List.mem_cons_self _ _)
    simp only at hok hsp hlen hcol hnol hlead
    have hno : ∀ line ∈ users, usernameField line ≠ some username :=
      fun l hl => hfresh _ (List.mem_cons_self _ _) l hl
    have hadd := addCmd_fresh bcrypt salt file users username password hash hread hno hok
    have hread2 := readHtpasswdFile_append_entry file users username hash hread hnl hnol
      hlead hsp hlen
    have hfield : usernameField (username ++ [':'] ++ hash) = some username := by
      rw [usernameField_eq, List.append_assoc]
      simp only [List.singleton_append]
      rw [takeWhile_append_colon username hash hcol]
    rw [List.map_cons, List.nodup_cons] at hnd
    obtain ⟨final, added, hrun, hfin, hmap⟩ :=
      ih (some (file.getD [] ++ (username ++ [':'] ++ hash ++ ['\n'])))
        (users ++ [username ++ [':'] ++ hash]) hread2
        (by
          intro content hc
          right
          rw [← Option.some.inj hc, ← List.append_assoc, ← List.append_assoc]
          exact List.getLast?_concat _)
        (by
          intro a2 ha2 l hl
          rcases List.mem_append.mp hl with h | h
          · exact hfresh a2 (List.mem_cons_of_mem _ ha2) l h
          · rw [List.mem_singleton.mp h, hfield]
            intro e
            exact hnd.1 (by
              rw [Option.some.inj e]
              exact List.mem_map_of_mem (fun a => a.1) ha2))
        hnd.2
        (fun a2 ha2 => hu a2 (List.mem_cons_of_mem _ ha2))
        (fun a2 ha2 => hhash a2 (List.mem_cons_of_mem _ ha2))
    refine ⟨final, (username ++ [':'] ++ hash) :: added, ?_, ?_, ?_⟩
    · simp only [runAdds, hadd]
      exact hrun
    · rw [hfin, List.append_assoc]
      rfl
    · rw [List.map_cons, List.map_cons, hmap]
      rw [usernameField_eq, Option.some.injEq] at hfield
      rw [hfield]

/-! ## The claims -/

/-- C10: the split used by `list` and `add` (`SplitN` on ":" with limit 2) always
yields a first field, so taking `parts[0]` never fails (neither loop panics); the
username field has no colon; a line with a colon equals username, colon, rest with
the rest left unsplit; a line without colon is its own username and has no second
part. -/
theorem C10_splitN_first_field (line : Str) (i : Nat) (users : List Str) (username : Str) :
    (∃ field tail, SplitN line [':'] 2 = field :: tail ∧ usernameField line = some field ∧
      ':' ∉ field ∧
      ((':' ∈ line ∧ ∃ rest, tail = [rest] ∧ line = field ++ [':'] ++ rest) ∨
        (':' ∉ line ∧ tail = [] ∧ field = line))) ∧
    (listLoop i users).isSome = true ∧ (addLoop username users).isSome = true := by
  refine ⟨?_, by simp [listLoop_eq], by simp [addLoop_eq]⟩
  by_cases hm : ':' ∈ line
  · refine ⟨line.takeWhile (fun c => c != ':'),
      [(line.dropWhile (fun c => c != ':')).tail], ?_, usernameField_eq line,
      colon_not_mem_takeWhile line, Or.inl ⟨hm, _, rfl, ?_⟩⟩
    · rw [SplitN_colon_two, if_pos hm]
    · have := split_at_colon line hm
      simpa using this
  · refine ⟨line, [], ?_, ?_, hm, Or.inr ⟨hm, rfl, rfl⟩⟩
    · rw [SplitN_colon_two, if_neg hm]
    · rw [usernameField_eq, takeWhile_ne_colon_of_not_mem line hm]

/-- C9, as stated, fails for a username that contains a colon: the line `a:b:h` is
matched by the prefix check on `a:b` + ":" although its username field is `a`. -/
theorem C9_counterexample :
    HasPrefix "a:b:h".toList ("a:b".toList ++ [':']) = true ∧
      usernameField "a:b:h".toList = some "a".toList ∧
      usernameField "a:b:h".toList ≠ some "a:b".toList := by
  decide

/-- C9 (amended): for every username without colon, a line is matched by the
prefix check on username + ":" only if its username field equals the username; so
`delete` keeps, in order, every line with another username field and `editpass`
leaves every such line unchanged at its position. -/
theorem C9_prefix_match_own_field (username : Str) (hu : ':' ∉ username) (line hash : Str)
    (users : List Str) :
    (HasPrefix line (username ++ [':']) = true → usernameField line = some username) ∧
    List.Sublist (users.filter (fun l => decide (usernameField l ≠ some username)))
      (deleteLoop username users).1 ∧
    (∀ i (hi : i < users.length), usernameField (users.get ⟨i, hi⟩) ≠ some username →
      (editLoop username hash users).1[i]? = some (users.get ⟨i, hi⟩)) := by
  refine ⟨fun h => ((HasPrefix_colon_iff line username hu).mp h).2, ?_, ?_⟩
  · rw [deleteLoop_eq]
    simp only
    induction users with
    | nil => simp
    | cons l rest ih =>
      by_cases hp : HasPrefix l (username ++ [':']) = true
      · have hf := ((HasPrefix_colon_iff l username hu).mp hp).2
        rw [List.filter_cons_of_neg (p := fun l => decide (usernameField l ≠ some username))
            (by simp [hf]),
          List.filter_cons_of_neg (p := fun l => !HasPrefix l (username ++ [':']))
            (by simp [hp])]
        exact ih
      · have hp2 : HasPrefix l (username ++ [':']) = false := by simpa using hp
        rw [List.filter_cons_of_pos (p := fun l => !HasPrefix l (username ++ [':']))
          (by simp [hp2])]
        by_cases hf : usernameField l = some username
        · rw [List.filter_cons_of_neg (p := fun l => decide (usernameField l ≠ some username))
            (by simp [hf])]
          exact List.Sublist.cons l ih
        · rw [List.filter_cons_of_pos (p := fun l => decide (usernameField l ≠ some username))
            (by simpa using hf)]
          exact List.Sublist.cons₂ l ih
  · intro i hi hne
    rw [editLoop_eq]
    have hp : HasPrefix (users.get ⟨i, hi⟩) (username ++ [':']) = false := by
      cases hh : HasPrefix (users.get ⟨i, hi⟩) (username ++ [':']) with
      | false => rfl
      | true => exact absurd ((HasPrefix_colon_iff _ username hu).mp hh).2 hne
    simp only [List.get_eq_getElem] at hp
    simp [List.getElem?_map, List.getElem?_eq_getElem hi, hp]

theorem C9_prefix_match_own_field_witness :
    (HasPrefix "bob:h".toList ("bob".toList ++ [':']) = true →
      usernameField "bob:h".toList = some "bob".toList) ∧
    List.Sublist
      (["bobby:x".toList, "bob:h".toList].filter
        (fun l => decide (usernameField l ≠ some "bob".toList)))
      (deleteLoop "bob".toList ["bobby:x".toList, "bob:h".toList]).1 ∧
    (∀ i (hi : i < ["bobby:x".toList, "bob:h".toList].length),
      usernameField (["bobby:x".toList, "bob:h".toList].get ⟨i, hi⟩) ≠ some "bob".toList →
      (editLoop "bob".toList "n".toList ["bobby:x".toList, "bob:h".toList]).1[i]? =
        some (["bobby:x".toList, "bob:h".toList].get ⟨i, hi⟩)) :=
  C9_prefix_match_own_field "bob".toList (by decide) "bob:h".toList "n".toList
    ["bobby:x".toList, "bob:h".toList]

/-- C1, as stated, fails on a line without colon: in the store read from `bob\n`
the username `bob` exists (it is the username field of the line `bob`), yet
`delete bob` finds no line starting with `bob:`, reports that the user does not
exist and does not rewrite the file. -/
theorem C1_counterexample :
    readHtpasswdFile (some "bob\n".toList) = (["bob".toList], none) ∧
      (∃ line ∈ (readHtpasswdFile (some "bob\n".toList)).1,
        usernameField line = some "bob".toList) ∧
      deleteCmd (some "bob\n".toList) "bob".toList = ⟨none, msgNotExist "bob".toList⟩ := by
  decide

/-- C1 (amended): for every file the reader reads without error, its store (the
sequence of lines the reader returns) and every username that is the username
field of some line of the store containing a colon, `delete` rewrites the file
(lines joined by line feeds plus a final line feed) with exactly the lines that
contain a colon and have that username field removed, every other line kept
unchanged and in order; the number of lines drops by the number of such lines, by
exactly one when there is one. -/
theorem C1_delete_removes_matching (file : Option Str) (users : List Str) (username : Str)
    (hread : readHtpasswdFile file = (users, none))
    (hex : ∃ line ∈ users, ':' ∈ line ∧ usernameField line = some username) :
    deleteCmd file username =
      ⟨some (.writeFile (writeBack (users.filter (fun l =>
          !(decide (':' ∈ l) && decide (usernameField l = some username)))))),
        msgDeleted username⟩ ∧
    (users.filter (fun l =>
        !(decide (':' ∈ l) && decide (usernameField l = some username)))).length +
      users.countP (fun l => decide (':' ∈ l) && decide (usernameField l = some username)) =
        users.length ∧
    (users.countP (fun l => decide (':' ∈ l) && decide (usernameField l = some username)) = 1 →
      (users.filter (fun l =>
        !(decide (':' ∈ l) && decide (usernameField l = some username)))).length + 1 =
          users.length) := by
  obtain ⟨line, hl, hc, hf⟩ := hex
  have hu : ':' ∉ username := colon_not_mem_of_usernameField hf
  have hfun : (fun l => HasPrefix l (username ++ [':'])) =
      (fun l => decide (':' ∈ l) && decide (usernameField l = some username)) :=
    funext (fun l => HasPrefix_colon_eq l username hu)
  have hfun2 : (fun l => !HasPrefix l (username ++ [':'])) =
      (fun l => !(decide (':' ∈ l) && decide (usernameField l = some username))) :=
    funext (fun l => by rw [HasPrefix_colon_eq l username hu])
  have hany : users.any (fun l => HasPrefix l (username ++ [':'])) = true := by
    rw [List.any_eq_true]
    exact ⟨line, hl, (HasPrefix_colon_iff line username hu).mpr ⟨hc, hf⟩⟩
  have hlen : (users.filter (fun l =>
        !(decide (':' ∈ l) && decide (usernameField l = some username)))).length +
      users.countP (fun l => decide (':' ∈ l) && decide (usernameField l = some username)) =
        users.length := by
    rw [← List.countP_eq_length_filter]
    have := List.length_eq_countP_add_countP
      (fun l => decide (':' ∈ l) && decide (usernameField l = some username)) users
    rw [this]
    rw [Nat.add_comm]
    congr 1
    apply List.countP_congr
    intro x _
    simp
  refine ⟨?_, hlen, fun h1 => by rw [h1] at hlen; exact hlen⟩
  simp only [deleteCmd, hread, deleteLoop_eq, hany, hfun2]
  rfl

theorem C1_delete_removes_matching_witness :
    deleteCmd (some "alice:x\nbob:y\n".toList) "bob".toList =
      ⟨some (.writeFile (writeBack (["alice:x".toList, "bob:y".toList].filter (fun l =>
          !(decide (':' ∈ l) && decide (usernameField l = some "bob".toList)))))),
        msgDeleted "bob".toList⟩ ∧
    (["alice:x".toList, "bob:y".toList].filter (fun l =>
        !(decide (':' ∈ l) && decide (usernameField l = some "bob".toList)))).length +
      ["alice:x".toList, "bob:y".toList].countP
        (fun l => decide (':' ∈ l) && decide (usernameField l = some "bob".toList)) =
        ["alice:x".toList, "bob:y".toList].length ∧
    (["alice:x".toList, "bob:y".toList].countP
        (fun l => decide (':' ∈ l) && decide (usernameField l = some "bob".toList)) = 1 →
      (["alice:x".toList, "bob:y".toList].filter (fun l =>
        !(decide (':' ∈ l) && decide (usernameField l = some "bob".toList)))).length + 1 =
          ["alice:x".toList, "bob:y".toList].length) :=
  C1_delete_removes_matching (some "alice:x\nbob:y\n".toList)
    ["alice:x".toList, "bob:y".toList] "bob".toList (by decide)
    ⟨"bob:y".toList, by decide, by decide, by decide⟩

/-- C2: when the username is the username field of some line of the store, `add`
performs no file operation, whatever the password (and the hasher): the file after
the call is the file before it. -/
theorem C2_add_existing_no_write (bcrypt : Str → Nat → Except Str Str) (salt : Nat)
    (file : Option Str) (username password : Str)
    (hex : ∃ line ∈ (readHtpasswdFile file).1, usernameField line = some username) :
    ∃ o, addCmd bcrypt salt file username password = some o ∧ o.write = none ∧
      fileAfter file o.write = file := by
  obtain ⟨line, hl, hf⟩ := hex
  cases hr : readHtpasswdFile file with
  | mk users err =>
    rw [hr] at hl
    cases err with
    | some e => exact ⟨⟨none, msgReadFailed e⟩, by simp [addCmd, hr], rfl, rfl⟩
    | none =>
      have hany : users.any (fun l => decide (usernameField l = some username)) = true := by
        rw [List.any_eq_true]
        exact ⟨line, hl, by simpa using hf⟩
      exact ⟨⟨none, msgExists username⟩, by simp [addCmd, hr, addLoop_eq, hany], rfl, rfl⟩

theorem C2_add_existing_no_write_witness :
    ∃ o, addCmd (fun _ _ => .ok "h".toList) 0 (some "alice:x\nbob:y".toList) "bob".toList
        "secret".toList = some o ∧ o.write = none ∧
      fileAfter (some "alice:x\nbob:y".toList) o.write = some "alice:x\nbob:y".toList :=
  C2_add_existing_no_write (fun _ _ => .ok "h".toList) 0 (some "alice:x\nbob:y".toList)
    "bob".toList "secret".toList ⟨"bob:y".toList, by decide, by decide⟩

/-- C3, as stated, fails for a username that contains a colon: in the store read
from `a:b:h\n` no line has the username field `a:b` (the field of its line is `a`),
yet `delete a:b` and `editpass a:b` match the line by prefix and rewrite the
file. -/
theorem C3_counterexample :
    readHtpasswdFile (some "a:b:h\n".toList) = (["a:b:h".toList], none) ∧
      (∀ line ∈ (readHtpasswdFile (some "a:b:h\n".toList)).1,
        usernameField line ≠ some "a:b".toList) ∧
      deleteCmd (some "a:b:h\n".toList) "a:b".toList =
        ⟨some (.writeFile "\n".toList), msgDeleted "a:b".toList⟩ ∧
      editPassCmd (fun _ _ => .ok "n".toList) 0 (some "a:b:h\n".toList) "a:b".toList
          "pw".toList =
        ⟨some (.writeFile "a:b:n\n".toList), msgUpdated "a:b".toList⟩ := by
  decide

/-- C3 (amended): for every file the reader reads without error and every
username without colon that is the username field of no line of the store,
`delete` and `editpass` perform no file operation and leave the file unchanged;
`delete` reports that the user does not exist, and so does `editpass` whenever
hashing the new password succeeds. -/
theorem C3_absent_user_no_write (bcrypt : Str → Nat → Except Str Str) (salt : Nat)
    (file : Option Str) (users : List Str) (username newPassword : Str)
    (hread : readHtpasswdFile file = (users, none))
    (hu : ':' ∉ username)
    (hno : ∀ line ∈ users, usernameField line ≠ some username) :
    deleteCmd file username = ⟨none, msgNotExist username⟩ ∧
    fileAfter file (deleteCmd file username).write = file ∧
    (editPassCmd bcrypt salt file username newPassword).write = none ∧
    fileAfter file (editPassCmd bcrypt salt file username newPassword).write = file ∧
    (∀ hash, bcrypt newPassword salt = .ok hash →
      editPassCmd bcrypt salt file username newPassword = ⟨none, msgNotExist username⟩) := by
  have hany : users.any (fun l => HasPrefix l (username ++ [':'])) = false := by
    rw [List.any_eq_false]
    intro l hl hp
    exact hno l hl ((HasPrefix_colon_iff l username hu).mp hp).2
  have hd : deleteCmd file username = ⟨none, msgNotExist username⟩ := by
    simp [deleteCmd, hread, deleteLoop_eq, hany]
  have he : (editPassCmd bcrypt salt file username newPassword).write = none := by
    simp only [editPassCmd, hread]
    cases bcrypt newPassword salt with
    | error e => rfl
    | ok h => simp [editLoop_eq, hany]
  refine ⟨hd, by rw [hd]; rfl, he, by rw [he]; rfl, ?_⟩
  intro hash hh
  simp [editPassCmd, hread, hh, editLoop_eq, hany]

theorem C3_absent_user_no_write_witness :
    deleteCmd (some "alice:x\n".toList) "bob".toList = ⟨none, msgNotExist "bob".toList⟩ ∧
    fileAfter (some "alice:x\n".toList)
      (deleteCmd (some "alice:x\n".toList) "bob".toList).write = some "alice:x\n".toList ∧
    (editPassCmd (fun _ _ => .ok "n".toList) 0 (some "alice:x\n".toList) "bob".toList
      "pw".toList).write = none ∧
    fileAfter (some "alice:x\n".toList)
      (editPassCmd (fun _ _ => .ok "n".toList) 0 (some "alice:x\n".toList) "bob".toList
        "pw".toList).write = some "alice:x\n".toList ∧
    (∀ hash, (fun _ _ => .ok "n".toList : Str → Nat → Except Str Str) "pw".toList 0 = .ok hash →
      editPassCmd (fun _ _ => .ok "n".toList) 0 (some "alice:x\n".toList) "bob".toList
        "pw".toList = ⟨none, msgNotExist "bob".toList⟩) :=
  C3_absent_user_no_write (fun _ _ => .ok "n".toList) 0 (some "alice:x\n".toList)
    ["alice:x".toList] "bob".toList "pw".toList (by decide) (by decide) (by decide)

/-- C4, as stated, fails on a line without colon: in the store read from `bob\n`
the username `bob` exists, yet `editpass bob` finds no line starting with `bob:`,
reports that the user does not exist and does not rewrite the file. -/
theorem C4_counterexample :
    readHtpasswdFile (some "bob\n".toList) = (["bob".toList], none) ∧
      (∃ line ∈ (readHtpasswdFile (some "bob\n".toList)).1,
        usernameField line = some "bob".toList) ∧
      editPassCmd (fun _ _ => .ok "n".toList) 0 (some "bob\n".toList) "bob".toList
          "pw".toList = ⟨none, msgNotExist "bob".toList⟩ := by
  decide

/-- C4 (amended): for every file the reader reads without error, its store (the
sequence of lines the reader returns), every username that is the username field
of some line of the store containing a colon and every new hash the hasher
returns, `editpass` rewrites the file with the same number of lines, in which
every line that contains a colon and has that username field is replaced at its
position by username + ":" + new hash (a line with the same username field) and
every other line is unchanged. -/
theorem C4_editpass_replaces_in_place (bcrypt : Str → Nat → Except Str Str) (salt : Nat)
    (file : Option Str) (users : List Str) (username newPassword hash : Str)
    (hread : readHtpasswdFile file = (users, none))
    (hhash : bcrypt newPassword salt = .ok hash)
    (hex : ∃ line ∈ users, ':' ∈ line ∧ usernameField line = some username) :
    editPassCmd bcrypt salt file username newPassword =
      ⟨some (.writeFile (writeBack (users.map (fun l =>
          if ':' ∈ l ∧ usernameField l = some username then username ++ [':'] ++ hash
          else l)))),
        msgUpdated username⟩ ∧
    (users.map (fun l =>
        if ':' ∈ l ∧ usernameField l = some username then username ++ [':'] ++ hash
        else l)).length = users.length ∧
    usernameField (username ++ [':'] ++ hash) = some username := by
  obtain ⟨line, hl, hc, hf⟩ := hex
  have hu : ':' ∉ username := colon_not_mem_of_usernameField hf
  have hfun : (fun l => if HasPrefix l (username ++ [':']) = true
        then username ++ [':'] ++ hash else l) =
      (fun l => if ':' ∈ l ∧ usernameField l = some username then username ++ [':'] ++ hash
        else l) := by
    funext l
    by_cases hp : HasPrefix l (username ++ [':']) = true
    · rw [if_pos hp, if_pos ((HasPrefix_colon_iff l username hu).mp hp)]
    · rw [if_neg hp, if_neg (fun h => hp ((HasPrefix_colon_iff l username hu).mpr h))]
  have hany : users.any (fun l => HasPrefix l (username ++ [':'])) = true := by
    rw [List.any_eq_true]
    exact ⟨line, hl, (HasPrefix_colon_iff line username hu).mpr ⟨hc, hf⟩⟩
  refine ⟨?_, by simp, ?_⟩
  · simp only [editPassCmd, hread, hhash, editLoop_eq, hany, hfun]
    rfl
  · rw [usernameField_eq, List.append_assoc]
    simp only [List.singleton_append]
    rw [takeWhile_append_colon username hash hu]

theorem C4_editpass_replaces_in_place_witness :
    editPassCmd (fun _ _ => .ok "n".toList) 0 (some "alice:x\nbob:y\n".toList) "alice".toList
        "pw".toList =
      ⟨some (.writeFile (writeBack (["alice:x".toList, "bob:y".toList].map (fun l =>
          if ':' ∈ l ∧ usernameField l = some "alice".toList
          then "alice".toList ++ [':'] ++ "n".toList else l)))),
        msgUpdated "alice".toList⟩ ∧
    (["alice:x".toList, "bob:y".toList].map (fun l =>
        if ':' ∈ l ∧ usernameField l = some "alice".toList
        then "alice".toList ++ [':'] ++ "n".toList else l)).length =
      ["alice:x".toList, "bob:y".toList].length ∧
    usernameField ("alice".toList ++ [':'] ++ "n".toList) = some "alice".toList :=
  C4_editpass_replaces_in_place (fun _ _ => .ok "n".toList) 0
    (some "alice:x\nbob:y\n".toList) ["alice:x".toList, "bob:y".toList] "alice".toList
    "pw".toList "n".toList (by decide) rfl ⟨"alice:x".toList, by decide, by decide, by decide⟩

/-- C8: round trip of the store.  Every sequence of lines the reader can return,
written as the write-back of `delete` and `editpass` writes it (lines joined by
line feeds plus a final line feed) and read back, gives the same sequence of lines
without error, hence the same username fields in the same order; the empty
sequence is written as a single line feed and read back as the empty sequence. -/
theorem C8_write_read_round_trip (file : Option Str) (lines : List Str)
    (err : Option ReadError) (hread : readHtpasswdFile file = (lines, err)) :
    readHtpasswdFile (some (writeBack lines)) = (lines, none) ∧
    (readHtpasswdFile (some (writeBack lines))).1.map usernameField =
      lines.map usernameField ∧
    writeBack [] = ['\n'] ∧ readHtpasswdFile (some (writeBack [])) = ([], none) := by
  have hmem := readHtpasswdFile_mem file
  rw [hread] at hmem
  have h1 := readHtpasswdFile_writeBack lines hmem
  exact ⟨h1, by rw [h1], rfl, by decide⟩

theorem C8_write_read_round_trip_witness :
    readHtpasswdFile (some (writeBack ["alice:x".toList, "bob:y".toList])) =
      (["alice:x".toList, "bob:y".toList], none) ∧
    (readHtpasswdFile (some (writeBack ["alice:x".toList, "bob:y".toList]))).1.map
        usernameField = ["alice:x".toList, "bob:y".toList].map usernameField ∧
    writeBack [] = ['\n'] ∧ readHtpasswdFile (some (writeBack [])) = ([], none) :=
  C8_write_read_round_trip (some " alice:x \r\n\n\tbob:y".toList)
    ["alice:x".toList, "bob:y".toList] none (by decide)

/-- C7, as stated, fails on a file with a line of 65536 bytes or more: on the file
made of 65536 letters `a` the scanner stops with `ErrTooLong` and the reader
returns no line, although the file has one line that is not empty after
trimming. -/
theorem C7_counterexample :
    readHtpasswdFile (some (List.replicate 65536 'a')) = ([], some .ErrTooLong) ∧
      trimmedNonEmptyLines (List.replicate 65536 'a') = [List.replicate 65536 'a'] :=
  ⟨readHtpasswdFile_long_line 65535 (by decide), trimmedNonEmptyLines_long_line 65535⟩

/-- C7 (amended): for every file content whose lines are all shorter than 65536
bytes (the token limit of the line scanner), the reader returns without error, in
file order, exactly the white-space-trimmed text of each line of the file that is
not empty after trimming; and for every file content, every line the reader
returns is not empty and has no leading or trailing white space, so that no line
that is blank after trimming is returned. -/
theorem C7_reader_trimmed_lines (content : Str) :
    ((∀ line ∈ fileLines content, byteLen line < MaxScanTokenSize) →
      readHtpasswdFile (some content) = (trimmedNonEmptyLines content, none)) ∧
    (∀ l ∈ (readHtpasswdFile (some content)).1,
      l ≠ [] ∧ TrimSpace l = l ∧ noLeadingSpace l = true ∧ noTrailingSpace l = true) := by
  constructor
  · intro hshort
    rw [trimmedNonEmptyLines_eq]
    exact readHtpasswdFile_ok content
      (fun r hr => hshort r (rawLines_subset_fileLines content r hr))
  · intro l hl
    have h := readHtpasswdFile_mem (some content) l hl
    exact ⟨h.1, TrimSpace_eq_self l h.2.1 h.2.2.1, h.2.1, h.2.2.1⟩

theorem C7_reader_trimmed_lines_witness :
    readHtpasswdFile (some "  alice:x \r\n\n \t\nbob:y".toList) =
      (trimmedNonEmptyLines "  alice:x \r\n\n \t\nbob:y".toList, none) ∧
    (∀ l ∈ (readHtpasswdFile (some "  alice:x \r\n\n \t\nbob:y".toList)).1,
      l ≠ [] ∧ TrimSpace l = l ∧ noLeadingSpace l = true ∧ noTrailingSpace l = true) :=
  ⟨(C7_reader_trimmed_lines "  alice:x \r\n\n \t\nbob:y".toList).1 (by decide),
    (C7_reader_trimmed_lines "  alice:x \r\n\n \t\nbob:y".toList).2⟩

/-- C6, as stated, fails on a file that does not end with a line feed: on the
content `alice:x` the username `bob` does not exist, `add bob` appends `bob:h` and a
line feed, and the store read back is the single line `alice:xbob:h`, not the old
store followed by `bob:h`. -/
theorem C6_counterexample :
    readHtpasswdFile (some "alice:x".toList) = (["alice:x".toList], none) ∧
      (∀ line ∈ (readHtpasswdFile (some "alice:x".toList)).1,
        usernameField line ≠ some "bob".toList) ∧
      addCmd (fun _ _ => .ok "h".toList) 0 (some "alice:x".toList) "bob".toList "pw".toList =
        some ⟨some (.append "bob:h\n".toList), msgAdded "bob".toList⟩ ∧
      readHtpasswdFile (fileAfter (some "alice:x".toList) (some (.append "bob:h\n".toList))) =
        (["alice:xbob:h".toList], none) := by
  decide

/-- C6 (amended): for every file content and every username that does not exist
in the store, a successful `add` appends exactly username + ":" + hash + line feed
to the previous content; and when the previous content is missing, empty or ends
with a line feed, the username has no line feed and no leading white space, the
hash has no white space and username + ":" + hash is shorter than 65536 bytes, the
store read back afterwards is the store read before followed by the single new
entry username:hash as its last line. -/
theorem C6_add_appends_entry (bcrypt : Str → Nat → Except Str Str) (salt : Nat)
    (file : Option Str) (users : List Str) (username password hash : Str)
    (hread : readHtpasswdFile file = (users, none))
    (hno : ∀ line ∈ users, usernameField line ≠ some username)
    (hhash : bcrypt password salt = .ok hash) :
    addCmd bcrypt salt file username password =
      some ⟨some (.append (username ++ [':'] ++ hash ++ ['\n'])), msgAdded username⟩ ∧
    fileAfter file (some (.append (username ++ [':'] ++ hash ++ ['\n']))) =
      some (file.getD [] ++ (username ++ [':'] ++ hash ++ ['\n'])) ∧
    ((∀ content, file = some content → content = [] ∨ content.getLast? = some '\n') →
      '\n' ∉ username → noLeadingSpace username = true →
      (∀ c ∈ hash, isSpace c = false) →
      byteLen (username ++ [':'] ++ hash) < MaxScanTokenSize →
      readHtpasswdFile (fileAfter file (some (.append (username ++ [':'] ++ hash ++ ['\n'])))) =
        (users ++ [username ++ [':'] ++ hash], none)) := by
  refine ⟨addCmd_fresh bcrypt salt file users username password hash hread hno hhash, rfl, ?_⟩
  intro hnl hu1 hu2 hh hlen
  exact readHtpasswdFile_append_entry file users username hash hread hnl hu1 hu2 hh hlen

theorem C6_add_appends_entry_witness :
    addCmd (fun _ _ => .ok "h".toList) 0 (some "alice:x\n".toList) "bob".toList "pw".toList =
      some ⟨some (.append ("bob".toList ++ [':'] ++ "h".toList ++ ['\n'])),
        msgAdded "bob".toList⟩ ∧
    fileAfter (some "alice:x\n".toList)
        (some (.append ("bob".toList ++ [':'] ++ "h".toList ++ ['\n']))) =
      some ((some "alice:x\n".toList).getD [] ++
        ("bob".toList ++ [':'] ++ "h".toList ++ ['\n'])) ∧
    readHtpasswdFile (fileAfter (some "alice:x\n".toList)
        (some (.append ("bob".toList ++ [':'] ++ "h".toList ++ ['\n'])))) =
      (["alice:x".toList] ++ ["bob".toList ++ [':'] ++ "h".toList], none) :=
  have h := C6_add_appends_entry (fun _ _ => .ok "h".toList) 0 (some "alice:x\n".toList)
    ["alice:x".toList] "bob".toList "pw".toList "h".toList (by decide) (by decide) rfl
  ⟨h.1, h.2.1, h.2.2 (by decide) (by decide) (by decide) (by decide) (by decide)⟩

/-- C5, as stated, fails for a username that contains a colon: after `add a:b` on
a missing file the file is `a:b:h` and a line feed, and `list` prints `1. a`, not
`1. a:b`. -/
theorem C5_counterexample :
    runAdds (fun _ _ => .ok "h".toList) none [("a:b".toList, "pw".toList, 0)] =
        some (some "a:b:h\n".toList) ∧
      listCmd (some "a:b:h\n".toList) = some ⟨none, "1. a\n".toList⟩ ∧
      listing ["a:b".toList] = "1. a:b\n".toList ∧
      listCmd (some "a:b:h\n".toList) ≠ some ⟨none, listing ["a:b".toList]⟩ := by
  decide

/-- C5 (amended): for every sequence of pairwise distinct usernames without colon,
without line feed and without leading white space, whose passwords are hashed
successfully into hashes without white space, every entry username:hash being
shorter than 65536 bytes, running `add` for each in turn from a missing or empty
file and then `list` prints exactly one line per username, in the order added, the
i-th line being the 1-based index i, ". " and the i-th username. -/
theorem C5_adds_then_list (bcrypt : Str → Nat → Except Str Str) (file : Option Str)
    (adds : List (Str × Str × Nat))
    (hfile : file = none ∨ file = some [])
    (hdistinct : (adds.map (fun a => a.1)).Nodup)
    (hnames : ∀ a ∈ adds, ':' ∉ a.1 ∧ '\n' ∉ a.1 ∧ noLeadingSpace a.1 = true)
    (hhash : ∀ a ∈ adds, ∃ hash, bcrypt a.2.1 a.2.2 = .ok hash ∧
      (∀ c ∈ hash, isSpace c = false) ∧
      byteLen (a.1 ++ [':'] ++ hash) < MaxScanTokenSize) :
    ∃ final, runAdds bcrypt file adds = some final ∧
      listCmd final = some ⟨none, listing (adds.map (fun a => a.1))⟩ := by
  have hread : readHtpasswdFile file = ([], none) := by
    rcases hfile with h | h <;> subst h <;> rfl
  obtain ⟨final, added, hrun, hfin, hmap⟩ :=
    runAdds_spec bcrypt adds file [] hread
      (by
        intro content hc
        rcases hfile with h | h
        · rw [h] at hc; exact absurd hc (by simp)
        · rw [h] at hc; left; exact (Option.some.inj hc).symm)
      (by intro a _ l hl; simp at hl) hdistinct hnames hhash
  refine ⟨final, hrun, ?_⟩
  rw [List.nil_append] at hfin
  rw [listCmd_ok final added hfin, hmap]

theorem C5_adds_then_list_witness :
    ∃ final, runAdds (fun pw salt => .ok (pw ++ (Nat.repr salt).toList)) none
        [("alice".toList, "s1".toList, 7), ("bob".toList, "s2".toList, 8)] = some final ∧
      listCmd final = some ⟨none, listing
        ([("alice".toList, "s1".toList, 7), ("bob".toList, "s2".toList, 8)].map
          (fun a => a.1))⟩ :=
  C5_adds_then_list (fun pw salt => .ok (pw ++ (Nat.repr salt).toList)) none
    [("alice".toList, "s1".toList, 7), ("bob".toList, "s2".toList, 8)]
    (Or.inl rfl) (by decide) (by decide)
    (by
      intro a ha
      simp only [List.mem_cons, List.mem_singleton, List.not_mem_nil, or_false] at ha
      rcases ha with rfl | rfl
      · exact ⟨"s17".toList, rfl, by decide, by decide⟩
      · exact ⟨"s28".toList, rfl, by decide, by decide⟩)

end Htpasswd
